import Mathlib

/-!
Verification development for the `bimur_robot_vision` object-detection node
(`src/object_detection_node.cpp`).  The C++ node is shallowly embedded:
point coordinates and plane coefficients become rationals, PCL library
calls (`pointToPlaneDistance`, `PassThrough`, `VoxelGrid`,
`ExtractIndices`, `CropBox`, `EuclideanClusterExtraction`) are embedded
by their documented semantics, and the service callback `seg_cb` becomes
a pure function of the aggregated cloud together with the outcome of the
external RANSAC plane fit (coefficients and inlier indices), which the
node receives from `pcl::SACSegmentation`.
-/

/-- A colored 3-D point (`pcl::PointXYZRGB`): position plus RGB color.
Coordinates and colors are modeled as rationals. -/
structure Point where
  x : ℚ
  y : ℚ
  z : ℚ
  r : ℚ
  g : ℚ
  b : ℚ
deriving DecidableEq, Repr

instance : Inhabited Point := ⟨⟨0, 0, 0, 0, 0, 0⟩⟩

/-- Plane model coefficients (a, b, c, d) of the implicit plane
a·x + b·y + c·z + d = 0; also reused as a 4-float vector
(`Eigen::Vector4f`) by the crop-box call. -/
structure Coeffs where
  a : ℚ
  b : ℚ
  c : ℚ
  d : ℚ
deriving DecidableEq, Repr

/-- Signed point-to-plane quantity a·x + b·y + c·z + d
(`pcl::pointToPlaneDistanceSigned`). -/
def pointToPlaneDistanceSigned (p : Point) (c : Coeffs) : ℚ :=
  c.a * p.x + c.b * p.y + c.c * p.z + c.d

/-- Unsigned point-to-plane distance (`pcl::pointToPlaneDistance`):
the absolute value of the signed quantity. -/
def pointToPlaneDistance (p : Point) (c : Coeffs) : ℚ :=
  |pointToPlaneDistanceSigned p c|

/-- Global `plane_distance_tolerance = 0.09` (line 60): an object whose
closest point to the plane is further than this is rejected. -/
def plane_distance_tolerance : ℚ := 9 / 100

/-- Global `plane_max_distance_tolerance = 0.02` (line 63); only used by
a commented-out branch of `filter`. -/
def plane_max_distance_tolerance : ℚ := 1 / 50

/-- One iteration of the loop body of `filter` (lines 147-164): update the
running (min_distance, max_distance) pair with the distance of one point. -/
def filterFold (c : Coeffs) (acc : ℚ × ℚ) (p : Point) : ℚ × ℚ :=
  let distance := pointToPlaneDistance p c
  let acc1 := if distance < acc.1 then (distance, acc.2) else acc
  if distance > acc1.2 then (acc1.1, distance) else acc1

/-- The cluster acceptance test `filter` (lines 141-179): scan the blob
tracking the minimum and maximum point-to-plane distance, starting from
the sentinels 1000.0 and -1000.0, and reject iff the minimum exceeds the
tolerance.  (The max-distance test at lines 169-170 is commented out in
the source.) -/
def filter (blob : List Point) (plane_coefficients : Coeffs) (tolerance : ℚ) : Bool :=
  let md := blob.foldl (filterFold plane_coefficients) (1000, -1000)
  if md.1 > tolerance then false else true

/-- The minimum distance tracked by `filter`, written directly as a fold
of `min` over the individual point distances (seed 1000). -/
def minDistanceOf (blob : List Point) (c : Coeffs) : ℚ :=
  (blob.map (fun p => pointToPlaneDistance p c)).foldr min 1000

/-- The minimum SIGNED distance of a blob to a plane, as the spec's
wording of the proximity filter describes it (seed 1000).  This is the
spec-side reading; the source uses the unsigned distance. -/
def minSignedDistanceOf (blob : List Point) (c : Coeffs) : ℚ :=
  (blob.map (fun p => pointToPlaneDistanceSigned p c)).foldr min 1000

/-- Point of a cloud at an index (out-of-range reads give the default
point; all verified accesses stay in range). -/
def getPt (cloud : List Point) (i : ℕ) : Point :=
  cloud.getD i default

/-- Squared Euclidean distance between two points. -/
def sqDist (p q : Point) : ℚ :=
  (p.x - q.x) ^ 2 + (p.y - q.y) ^ 2 + (p.z - q.z) ^ 2

/-- Indices of cloud points within `tol` Euclidean distance of point `i`
(the radius search of the kd-tree used by
`pcl::EuclideanClusterExtraction`); stated on squared distances. -/
def neighbors (cloud : List Point) (tol : ℚ) (i : ℕ) : Finset ℕ :=
  (Finset.range cloud.length).filter
    (fun j => sqDist (getPt cloud i) (getPt cloud j) ≤ tol ^ 2)

/-- The neighbor relation of the clustering graph: both endpoints are
cloud indices and their distance is within the tolerance. -/
def adjRel (cloud : List Point) (tol : ℚ) (i j : ℕ) : Prop :=
  i < cloud.length ∧ j ∈ neighbors cloud tol i

/-- One breadth-first expansion step of the flood fill inside
`pcl::EuclideanClusterExtraction::extract`: a set of reached indices
together with all their radius neighbors. -/
def expand (cloud : List Point) (tol : ℚ) (s : Finset ℕ) : Finset ℕ :=
  s ∪ s.biUnion (neighbors cloud tol)

/-- The set of indices reached by the flood fill seeded at `i`:
`cloud.length` expansion steps reach the fixpoint, i.e. the connected
component of `i`. -/
def component (cloud : List Point) (tol : ℚ) (i : ℕ) : Finset ℕ :=
  (expand cloud tol)^[cloud.length] {i}

/-- The outer loop of the cluster extraction: visit every seed index in
order, skip indices already swallowed by an earlier component, and emit
the flood-fill component of each fresh seed. -/
def clustersLoop (cloud : List Point) (tol : ℚ) :
    List ℕ → Finset ℕ → List (Finset ℕ)
  | [], _ => []
  | i :: rest, processed =>
    if i ∈ processed then clustersLoop cloud tol rest processed
    else component cloud tol i ::
      clustersLoop cloud tol rest (processed ∪ component cloud tol i)

/-- All flood-fill components of a cloud, in seed-discovery order. -/
def clusterIndices (cloud : List Point) (tol : ℚ) : List (Finset ℕ) :=
  clustersLoop cloud tol (List.range cloud.length) ∅

/-- Components surviving the size gate `setMinClusterSize(50)` /
`setMaxClusterSize(25000)` (lines 214-215). -/
def goodClusters (cloud : List Point) (tol : ℚ) : List (Finset ℕ) :=
  (clusterIndices cloud tol).filter
    (fun s => decide (50 ≤ s.card ∧ s.card ≤ 25000))

/-- `computeClusters` (lines 205-233): Euclidean cluster extraction with
the given tolerance, size bounds [50, 25000], materializing each
surviving index set as a point cloud. -/
def computeClusters (cloud : List Point) (tol : ℚ) : List (List Point) :=
  (goodClusters cloud tol).map
    (fun s => (s.sort (· ≤ ·)).map (getPt cloud))

/-- `pcl::ExtractIndices` with `setNegative(false)`: the points of the
cloud at the given indices, in index order. -/
def extractPos (cloud : List Point) (idx : List ℕ) : List Point :=
  idx.filterMap (fun i => cloud.get? i)

/-- Recursive worker for negative extraction: walk the cloud with its
running index, keeping exactly the points whose index is not listed. -/
def extractNegAux (idx : List ℕ) : ℕ → List Point → List Point
  | _, [] => []
  | i, p :: ps =>
    if i ∈ idx then extractNegAux idx (i + 1) ps
    else p :: extractNegAux idx (i + 1) ps

/-- `pcl::ExtractIndices` with `setNegative(true)`: the complement of the
indexed points, original order preserved. -/
def extractNeg (cloud : List Point) (idx : List ℕ) : List Point :=
  extractNegAux idx 0 cloud

/-- `pcl::PassThrough` on field "z" with limits [0.0, 1.0]
(lines 307-311). -/
def passThroughZ (cloud : List Point) : List Point :=
  cloud.filter (fun p => decide (0 ≤ p.z ∧ p.z ≤ 1))

/-- Voxel-grid leaf size 0.005 (line 317). -/
def leafSize : ℚ := 1 / 200

/-- The voxel cell containing a point: integer floor of each coordinate
divided by the leaf size. -/
def voxelKey (p : Point) : ℤ × ℤ × ℤ :=
  (⌊p.x / leafSize⌋, ⌊p.y / leafSize⌋, ⌊p.z / leafSize⌋)

/-- Centroid of a list of points (average of every field, as
`pcl::VoxelGrid` computes per occupied voxel). -/
def centroid (l : List Point) : Point :=
  let m : ℚ := l.length
  { x := (l.map Point.x).sum / m, y := (l.map Point.y).sum / m,
    z := (l.map Point.z).sum / m, r := (l.map Point.r).sum / m,
    g := (l.map Point.g).sum / m, b := (l.map Point.b).sum / m }

/-- `pcl::VoxelGrid` downsampling (lines 314-318): one centroid point per
occupied voxel cell, cells in first-occurrence order. -/
def voxelFilter (cloud : List Point) : List Point :=
  ((cloud.map voxelKey).dedup).map
    (fun k => centroid (cloud.filter (fun p => decide (voxelKey p = k))))

/-- The coefficient adjustment of lines 372-376:
plane_coefficients = (a + 0.1, b + 0.5, c + 0.1, d). -/
def adjustCoeffs (c : Coeffs) : Coeffs :=
  ⟨c.a + 1 / 10, c.b + 1 / 2, c.c + 1 / 10, c.d⟩

/-- `pcl::CropBox` (lines 387-391): keep the points inside the
axis-aligned box between the two corner vectors (their fourth,
homogeneous components play no role). -/
def cropBox (minv maxv : Coeffs) (cloud : List Point) : List Point :=
  cloud.filter (fun p => decide (minv.a ≤ p.x ∧ p.x ≤ maxv.a ∧
    minv.b ≤ p.y ∧ p.y ≤ maxv.b ∧ minv.c ≤ p.z ∧ p.z ≤ maxv.c))

/-- The `TabletopPerception::Response` message: ROS default-initializes
every field (false / empty / zeros). -/
structure Response where
  is_plane_found : Bool := false
  cloud_plane : List Point := []
  cloud_plane_coef : Coeffs := ⟨0, 0, 0, 0⟩
  cloud_clusters : List (List Point) := []
deriving DecidableEq, Repr

/-- The service callback `seg_cb` (lines 298-441) as a pure function of
the aggregated input cloud and the outcome of the external
`pcl::SACSegmentation` RANSAC fit over the filtered cloud (its fitted
`coefficients` and `inliers` index list).  Returns the filled response
together with the C++ return value of the callback. -/
def seg_cb (cloud_in : List Point) (coefficients : Coeffs)
    (inliers : List ℕ) : Response × Bool :=
  let cloud := passThroughZ cloud_in
  let cloud_filtered := voxelFilter cloud
  let cloud_plane := extractPos cloud_filtered inliers
  if cloud_plane.isEmpty then
    ({ is_plane_found := false }, true)
  else
    let cloud_blobs := extractNeg cloud_filtered inliers
    let plane_coefficients := adjustCoeffs coefficients
    let clusters := computeClusters cloud_blobs (1 / 25)
    let cloud_plane2 := cropBox ⟨0, 0, 0, 1⟩ plane_coefficients cloud_filtered
    let clusters_on_plane :=
      clusters.filter (fun c => filter c plane_coefficients plane_distance_tolerance)
    ({ is_plane_found := true,
       cloud_plane := cloud_plane2,
       cloud_plane_coef := plane_coefficients,
       cloud_clusters := clusters_on_plane }, true)

/-- One sensor frame: its points and its frame-of-reference tag
(`header.frame_id`). -/
structure Frame where
  points : List Point
  frameId : String
deriving DecidableEq, Repr

instance : Inhabited Frame := ⟨⟨[], ""⟩⟩

/-- The body of the polling loop of `waitForCloudK` (lines 270-288):
consume frames from the arrival stream, appending each frame's points to
the accumulator and counting it; once the counter reaches `k`, return
the aggregate stamped with the current frame's tag.  If the stream is
exhausted first the loop never exits (`none`: the call blocks). -/
def waitLoop (k : ℕ) : List Frame → ℕ → List Point → Option Frame
  | [], _, _ => none
  | f :: rest, counter, acc =>
    let acc2 := acc ++ f.points
    let counter2 := counter + 1
    if k ≤ counter2 then some ⟨acc2, f.frameId⟩
    else waitLoop k rest counter2 acc2

/-- `waitForCloudK` (lines 263-290): clear the aggregate, then run the
polling loop from a zero counter over the stream of freshly produced
frames. -/
def waitForCloudK (k : ℕ) (stream : List Frame) : Option Frame :=
  waitLoop k stream 0 []

/-- A sample sensor point on the plane z = 1/2, used for concrete
evaluations. -/
def demoPoint : Point := ⟨0, 0, 1 / 2, 0, 0, 0⟩

/-- A sample fitted plane model z = 1/2 (coefficients (0, 0, 1, -1/2)),
used for concrete evaluations. -/
def demoCoeffs : Coeffs := ⟨0, 0, 1, -(1 / 2)⟩

/-- A sample stream of two one-point frames, used for concrete
evaluations. -/
def demoStream : List Frame := [⟨[demoPoint], "a"⟩, ⟨[demoPoint], "b"⟩]

/-! ### Lemmas about the proximity filter `filter` -/

theorem filterFold_fst (c : Coeffs) (acc : ℚ × ℚ) (p : Point) :
    (filterFold c acc p).1 = min acc.1 (pointToPlaneDistance p c) := by
  unfold filterFold
  dsimp only
  rcases lt_or_le (pointToPlaneDistance p c) acc.1 with h | h
  · rw [if_pos h, min_eq_right h.le]
    split <;> rfl
  · rw [if_neg (not_lt.mpr h), min_eq_left h]
    split <;> rfl

theorem foldl_filterFold_fst (c : Coeffs) :
    ∀ (blob : List Point) (acc : ℚ × ℚ),
      (blob.foldl (filterFold c) acc).1 =
        (blob.map (fun p => pointToPlaneDistance p c)).foldl min acc.1
  | [], _ => rfl
  | p :: ps, acc => by
    rw [List.foldl_cons, List.map_cons, List.foldl_cons,
      foldl_filterFold_fst c ps (filterFold c acc p), filterFold_fst]

theorem foldr_min_shift (a : ℚ) :
    ∀ (l : List ℚ) (m : ℚ), l.foldr min (min m a) = min a (l.foldr min m)
  | [], m => min_comm m a
  | b :: l, m => by
    rw [List.foldr_cons, List.foldr_cons, foldr_min_shift a l m, min_left_comm]

theorem foldl_min_eq_foldr_min :
    ∀ (l : List ℚ) (m : ℚ), l.foldl min m = l.foldr min m
  | [], _ => rfl
  | a :: l, m => by
    rw [List.foldl_cons, List.foldr_cons, foldl_min_eq_foldr_min l (min m a),
      foldr_min_shift]

/-- The acceptance test of `filter` is exactly a comparison of the
tracked minimum distance against the tolerance. -/
theorem filter_eq_decide (blob : List Point) (c : Coeffs) (tol : ℚ) :
    filter blob c tol = decide (minDistanceOf blob c ≤ tol) := by
  have h1 : (blob.foldl (filterFold c) (1000, -1000)).1 = minDistanceOf blob c := by
    rw [minDistanceOf, foldl_filterFold_fst, foldl_min_eq_foldr_min]
  simp only [filter, h1]
  rcases le_or_lt (minDistanceOf blob c) tol with h | h
  · rw [if_neg (not_lt.mpr h), decide_eq_true_eq.mpr h]
  · rw [if_pos h]
    simp [not_le.mpr h]

theorem foldr_min_le_iff :
    ∀ (l : List ℚ) (s tol : ℚ), l.foldr min s ≤ tol ↔ s ≤ tol ∨ ∃ x ∈ l, x ≤ tol
  | [], s, tol => by simp
  | a :: l, s, tol => by
    rw [List.foldr_cons, min_le_iff, foldr_min_le_iff l s tol]
    constructor
    · rintro (h | h | ⟨x, hx, hle⟩)
      · exact Or.inr ⟨a, List.mem_cons_self a l, h⟩
      · exact Or.inl h
      · exact Or.inr ⟨x, List.mem_cons_of_mem a hx, hle⟩
    · rintro (h | ⟨x, hx, hle⟩)
      · exact Or.inr (Or.inl h)
      · rcases List.mem_cons.mp hx with rfl | hx
        · exact Or.inl hle
        · exact Or.inr (Or.inr ⟨x, hx, hle⟩)

/-- Claim C2 (amended): for every cluster and adjusted plane model, the
proximity filter tracks, over every point of the cluster, the minimum of
the ABSOLUTE (unsigned) point-to-plane distances |a·x + b·y + c·z + d|
(seeded with the 1000.0 sentinel), and returns accept = true if and only
if that minimum is ≤ the tolerance. -/
theorem filter_accept_iff_min_le (blob : List Point) (c : Coeffs) (tol : ℚ) :
    filter blob c tol = true ↔ minDistanceOf blob c ≤ tol := by
  rw [filter_eq_decide]
  exact decide_eq_true_iff

/-- Claim C2 (counterexample): the filter does not use SIGNED distances.
The single-point cluster at (0, 0, -1) against the plane z = 0 has
minimum signed distance -1 ≤ 0.09, so the claim as stated accepts it,
but the code computes |−1| = 1 > 0.09 and rejects it. -/
theorem filter_signed_claim_cex :
    minSignedDistanceOf [⟨0, 0, -1, 0, 0, 0⟩] ⟨0, 0, 1, 0⟩ ≤ plane_distance_tolerance ∧
      filter [⟨0, 0, -1, 0, 0, 0⟩] ⟨0, 0, 1, 0⟩ plane_distance_tolerance = false := by
  constructor
  · norm_num [minSignedDistanceOf, pointToPlaneDistanceSigned, plane_distance_tolerance]
  · norm_num [filter, filterFold, pointToPlaneDistance, pointToPlaneDistanceSigned,
      plane_distance_tolerance]

/-- Claim C8 (amended): for every plane model and every tolerance below
the 1000.0 sentinel (in particular the default 0.09), the proximity
filter applied to an empty cluster returns accept = false: the tracked
minimum never leaves its 1000.0 seed, which exceeds the tolerance. -/
theorem filter_empty_rejects (c : Coeffs) (tol : ℚ) (h : tol < 1000) :
    filter [] c tol = false := by
  unfold filter
  simp only [List.foldl_nil]
  rw [if_pos h]

theorem filter_empty_rejects_witness :
    plane_distance_tolerance < 1000 ∧
      filter [] ⟨0, 0, 1, 0⟩ plane_distance_tolerance = false :=
  ⟨by norm_num [plane_distance_tolerance],
   filter_empty_rejects ⟨0, 0, 1, 0⟩ plane_distance_tolerance
     (by norm_num [plane_distance_tolerance])⟩

/-- Claim C8 (counterexample): the claim quantifies over EVERY tolerance,
but at tolerance 1000 the empty cluster is accepted, because the tracked
minimum stays at the 1000.0 sentinel and 1000 > 1000 is false. -/
theorem filter_empty_claim_cex :
    filter [] ⟨0, 0, 1, 0⟩ 1000 = true := by
  norm_num [filter]

/-- Claim C10: for every cluster, acceptance at the default tolerance
0.09 holds exactly when some point of the cluster is within tolerance of
the adjusted plane; the maximum distance that the loop also tracks has
no effect on the result. -/
theorem filter_accepts_iff_some_point_close (blob : List Point) (c : Coeffs) :
    filter blob c plane_distance_tolerance = true ↔
      ∃ p ∈ blob, pointToPlaneDistance p c ≤ plane_distance_tolerance := by
  rw [filter_eq_decide, decide_eq_true_iff]
  unfold minDistanceOf
  rw [foldr_min_le_iff]
  constructor
  · rintro (h | ⟨x, hx, hle⟩)
    · exfalso
      norm_num [plane_distance_tolerance] at h
    · obtain ⟨p, hp, rfl⟩ := List.mem_map.mp hx
      exact ⟨p, hp, hle⟩
  · rintro ⟨p, hp, hle⟩
    exact Or.inr ⟨_, List.mem_map_of_mem _ hp, hle⟩

/-! ### Voxel downsampling -/

/-- Claim C9: the voxel-grid downsampling step never increases the point
count: it emits one centroid per occupied voxel cell, and there are at
most as many occupied cells as input points. -/
theorem voxelFilter_length_le (cloud : List Point) :
    (voxelFilter cloud).length ≤ cloud.length := by
  unfold voxelFilter
  rw [List.length_map]
  calc ((cloud.map voxelKey).dedup).length
      ≤ (cloud.map voxelKey).length := (cloud.map voxelKey).dedup_sublist.length_le
    _ = cloud.length := List.length_map _ _

/-! ### The no-plane short-circuit of `seg_cb` -/

/-- Claim C3: when the RANSAC inlier set is empty, `seg_cb` answers
is_plane_found = false with every other response field left at its
default (empty clouds, zero coefficients), does not reach the clustering
and proximity-filtering stages (they live in the other branch), and
still returns true, i.e. the service call completes successfully. -/
theorem seg_cb_no_plane (cloud : List Point) (coefficients : Coeffs) :
    seg_cb cloud coefficients [] =
      ({ is_plane_found := false, cloud_plane := [],
         cloud_plane_coef := ⟨0, 0, 0, 0⟩, cloud_clusters := [] }, true) := rfl

/-! ### Plane / foreground extraction (`pcl::ExtractIndices`) -/

theorem extractPos_length (cloud : List Point) :
    ∀ idx : List ℕ, (∀ i ∈ idx, i < cloud.length) →
      (extractPos cloud idx).length = idx.length
  | [], _ => rfl
  | i :: is, h => by
    have hi : i < cloud.length := h i (List.mem_cons_self i is)
    have hcons : extractPos cloud (i :: is) =
        cloud.get ⟨i, hi⟩ :: extractPos cloud is := by
      unfold extractPos
      rw [List.filterMap_cons, List.get?_eq_get hi]
    rw [hcons, List.length_cons, List.length_cons,
      extractPos_length cloud is (fun j hj => h j (List.mem_cons_of_mem i hj))]

theorem mem_extractPos (cloud : List Point) (idx : List ℕ) (i : ℕ)
    (hi : i < cloud.length) (h : i ∈ idx) :
    cloud.get ⟨i, hi⟩ ∈ extractPos cloud idx :=
  List.mem_filterMap.mpr ⟨i, h, List.get?_eq_get hi⟩

theorem extractNegAux_sublist (idx : List ℕ) :
    ∀ (l : List Point) (s : ℕ), List.Sublist (extractNegAux idx s l) l
  | [], _ => List.Sublist.refl []
  | p :: ps, s => by
    unfold extractNegAux
    split
    · exact (extractNegAux_sublist idx ps (s + 1)).cons p
    · exact (extractNegAux_sublist idx ps (s + 1)).cons₂ p

theorem extractNegAux_length (idx : List ℕ) :
    ∀ (l : List Point) (s : ℕ),
      (extractNegAux idx s l).length +
        (List.range' s l.length).countP (fun j => decide (j ∈ idx)) = l.length
  | [], s => by simp [extractNegAux]
  | p :: ps, s => by
    have ih := extractNegAux_length idx ps (s + 1)
    rw [List.length_cons, List.range'_succ, List.countP_cons]
    by_cases hmem : s ∈ idx
    · have he : extractNegAux idx s (p :: ps) = extractNegAux idx (s + 1) ps := by
        simp only [extractNegAux]
        rw [if_pos hmem]
      rw [he, decide_eq_true hmem]
      have ho : (if (true : Bool) = true then 1 else 0) = 1 := rfl
      rw [ho]
      omega
    · have he : extractNegAux idx s (p :: ps) = p :: extractNegAux idx (s + 1) ps := by
        simp only [extractNegAux]
        rw [if_neg hmem]
      rw [he, decide_eq_false hmem, List.length_cons]
      have hz : (if (false : Bool) = true then 1 else 0) = 0 := rfl
      rw [hz]
      omega

theorem countP_range_mem (n : ℕ) (idx : List ℕ) (hnd : idx.Nodup)
    (hb : ∀ i ∈ idx, i < n) :
    (List.range n).countP (fun j => decide (j ∈ idx)) = idx.length := by
  rw [List.countP_eq_length_filter]
  have hperm : List.Perm ((List.range n).filter (fun j => decide (j ∈ idx))) idx := by
    apply List.perm_of_nodup_nodup_toFinset_eq
    · exact (List.nodup_range n).filter _
    · exact hnd
    · ext a
      simp only [List.mem_toFinset, List.mem_filter, List.mem_range, decide_eq_true_eq]
      exact ⟨fun h => h.2, fun h => ⟨hb a h, h⟩⟩
  exact hperm.length_eq

theorem get_mem_extractNegAux (idx : List ℕ) :
    ∀ (l : List Point) (s j : ℕ) (hj : j < l.length),
      s + j ∉ idx → l.get ⟨j, hj⟩ ∈ extractNegAux idx s l
  | [], _, j, hj => absurd hj (by simp)
  | p :: ps, s, 0, _ => fun hmem => by
    unfold extractNegAux
    rw [if_neg (by simpa using hmem)]
    exact List.mem_cons_self _ _
  | p :: ps, s, j + 1, hj => fun hmem => by
    have h1 : (s + 1) + j ∉ idx := by
      have : s + (j + 1) = (s + 1) + j := by omega
      rwa [this] at hmem
    have ih := get_mem_extractNegAux idx ps (s + 1) j
      (Nat.lt_of_succ_lt_succ hj) h1
    unfold extractNegAux
    split
    · simpa using ih
    · exact List.mem_cons_of_mem p (by simpa using ih)

/-- Claim C6: for a fitted plane over the filtered cloud (valid, duplicate
free inlier indices), the extracted plane-inlier cloud and the foreground
cloud partition the filtered cloud: their lengths sum to the cloud's
length, the foreground is an order-preserving sublist of the cloud, and
every cloud index lands on exactly the side its membership in the inlier
index set dictates. -/
theorem plane_partition (cloud : List Point) (idx : List ℕ)
    (hnd : idx.Nodup) (hb : ∀ i ∈ idx, i < cloud.length) :
    (extractPos cloud idx).length + (extractNeg cloud idx).length = cloud.length
    ∧ List.Sublist (extractNeg cloud idx) cloud
    ∧ (∀ i (hi : i < cloud.length),
        (i ∈ idx → cloud.get ⟨i, hi⟩ ∈ extractPos cloud idx)
        ∧ (i ∉ idx → cloud.get ⟨i, hi⟩ ∈ extractNeg cloud idx)) := by
  refine ⟨?_, extractNegAux_sublist idx cloud 0,
    fun i hi => ⟨fun h => mem_extractPos cloud idx i hi h,
      fun h => by simpa using get_mem_extractNegAux idx cloud 0 i hi (by simpa using h)⟩⟩
  have h1 := extractNegAux_length idx cloud 0
  rw [← List.range_eq_range'] at h1
  have h2 := countP_range_mem cloud.length idx hnd hb
  rw [extractPos_length cloud idx hb, extractNeg]
  omega

theorem plane_partition_witness :
    ([1] : List ℕ).Nodup ∧ (∀ i ∈ ([1] : List ℕ), i < 2) ∧
      ((extractPos [demoPoint, demoPoint] [1]).length +
          (extractNeg [demoPoint, demoPoint] [1]).length = 2
        ∧ List.Sublist (extractNeg [demoPoint, demoPoint] [1]) [demoPoint, demoPoint]
        ∧ (∀ i (hi : i < ([demoPoint, demoPoint] : List Point).length),
            (i ∈ ([1] : List ℕ) →
              ([demoPoint, demoPoint] : List Point).get ⟨i, hi⟩ ∈
                extractPos [demoPoint, demoPoint] [1])
            ∧ (i ∉ ([1] : List ℕ) →
              ([demoPoint, demoPoint] : List Point).get ⟨i, hi⟩ ∈
                extractNeg [demoPoint, demoPoint] [1]))) :=
  ⟨by decide, by decide,
    plane_partition [demoPoint, demoPoint] [1] (by decide) (by decide)⟩

/-! ### Frame aggregation (`waitForCloudK`) -/

theorem waitLoop_spec (k : ℕ) :
    ∀ (stream : List Frame) (counter : ℕ) (acc : List Point),
      counter < k → k ≤ counter + stream.length →
      waitLoop k stream counter acc =
        some ⟨acc ++ ((stream.take (k - counter)).map Frame.points).flatten,
              (stream.getD (k - counter - 1) default).frameId⟩
  | [], counter, acc => by
    intro hlt hle
    simp only [List.length_nil] at hle
    omega
  | f :: rest, counter, acc => by
    intro hlt hle
    by_cases hstop : k ≤ counter + 1
    · have hk : k = counter + 1 := by omega
      subst hk
      have hsub : counter + 1 - counter = 1 := by omega
      have hsub1 : counter + 1 - counter - 1 = 0 := by omega
      simp only [waitLoop, hsub, hsub1]
      rw [if_pos (le_refl (counter + 1))]
      simp
    · have hlt2 : counter + 1 < k := by omega
      have hle2 : k ≤ (counter + 1) + rest.length := by
        simp only [List.length_cons] at hle
        omega
      have heq := waitLoop_spec k rest (counter + 1) (acc ++ f.points) hlt2 hle2
      obtain ⟨m, hm⟩ : ∃ m, k - counter - 1 = m + 1 := ⟨k - counter - 2, by omega⟩
      have hm1 : k - (counter + 1) = m + 1 := by omega
      have hm2 : k - counter = m + 2 := by omega
      have hm3 : k - (counter + 1) - 1 = m := by omega
      have hwl : waitLoop k (f :: rest) counter acc =
          waitLoop k rest (counter + 1) (acc ++ f.points) := by
        simp only [waitLoop]
        rw [if_neg hstop]
      rw [hwl, heq, hm1, hm2]
      rw [show (m + 2 : ℕ) = (m + 1) + 1 from rfl, List.take_succ_cons, List.map_cons,
        List.flatten_cons, List.append_assoc]
      rw [show (m + 1) + 1 - 1 = m + 1 from by omega, List.getD_cons_succ]
      rw [show m + 1 - 1 = m from by omega]

/-- Claim C5: for every k ≥ 1, provided the producer delivers at least k
frames (otherwise the polling loop never exits, i.e. the call blocks),
the aggregation observes exactly the first k freshly produced frames and
returns their points concatenated in arrival order — k·N points for k
frames of N points each, in frame-then-point order — with the aggregate's
frame tag copied from the last (k-th) frame collected. -/
theorem waitForCloudK_spec (k N : ℕ) (stream : List Frame)
    (hk : 1 ≤ k) (hlen : k ≤ stream.length)
    (hN : ∀ f ∈ stream.take k, f.points.length = N) :
    ∃ agg, waitForCloudK k stream = some agg
      ∧ agg.points = ((stream.take k).map Frame.points).flatten
      ∧ agg.points.length = k * N
      ∧ ∃ h : k - 1 < stream.length,
          agg.frameId = (stream.get ⟨k - 1, h⟩).frameId := by
  have heq := waitLoop_spec k stream 0 [] (by omega) (by omega)
  have hz : k - 0 = k := by omega
  rw [hz] at heq
  have hb : k - 1 < stream.length := by omega
  refine ⟨_, by rw [waitForCloudK, heq], by simp, ?_, ⟨hb, ?_⟩⟩
  · simp only [List.nil_append]
    rw [List.length_flatten]
    have hall : ∀ x ∈ (stream.take k).map (fun f => f.points.length), x = N := by
      intro x hx
      obtain ⟨f, hf, rfl⟩ := List.mem_map.mp hx
      exact hN f hf
    have hmm : ((stream.take k).map Frame.points).map List.length =
        (stream.take k).map (fun f => f.points.length) := by
      rw [List.map_map]
      rfl
    rw [hmm, List.sum_eq_card_nsmul _ N hall, List.length_map, List.length_take,
      min_eq_left hlen, smul_eq_mul]
  · simp only []
    rw [List.getD_eq_get _ _ hb]

theorem waitForCloudK_spec_witness :
    (1 ≤ 2 ∧ 2 ≤ demoStream.length ∧
      ∀ f ∈ demoStream.take 2, f.points.length = 1) ∧
    (∃ agg, waitForCloudK 2 demoStream = some agg
      ∧ agg.points = ((demoStream.take 2).map Frame.points).flatten
      ∧ agg.points.length = 2 * 1
      ∧ ∃ h : 2 - 1 < demoStream.length,
          agg.frameId = (demoStream.get ⟨2 - 1, h⟩).frameId) :=
  ⟨⟨by omega, by simp [demoStream], by simp [demoStream]⟩,
    waitForCloudK_spec 2 1 demoStream (by omega) (by simp [demoStream])
      (by simp [demoStream])⟩

/-! ### The found-plane branch of `seg_cb` -/

theorem centroid_singleton (p : Point) : centroid [p] = p := by
  cases p
  simp [centroid]

theorem voxelFilter_singleton (p : Point) : voxelFilter [p] = [p] := by
  simp only [voxelFilter, List.map_cons, List.map_nil]
  rw [show ([voxelKey p] : List (ℤ × ℤ × ℤ)).dedup = [voxelKey p] from by simp]
  simp only [List.map_cons, List.map_nil]
  rw [show List.filter (fun q => decide (voxelKey q = voxelKey p)) [p] = [p] from by simp,
    centroid_singleton]

/-- The else-branch of `seg_cb` (lines 360-440), characterized: when the
extracted plane cloud is non-empty the response carries the adjusted
coefficients, the crop-boxed filtered cloud, and the proximity-accepted
clusters, and the callback returns true. -/
theorem seg_cb_found (cloud : List Point) (co : Coeffs) (inl : List ℕ)
    (h : extractPos (voxelFilter (passThroughZ cloud)) inl ≠ []) :
    seg_cb cloud co inl =
      ({ is_plane_found := true,
         cloud_plane := cropBox ⟨0, 0, 0, 1⟩ (adjustCoeffs co)
           (voxelFilter (passThroughZ cloud)),
         cloud_plane_coef := adjustCoeffs co,
         cloud_clusters :=
           (computeClusters (extractNeg (voxelFilter (passThroughZ cloud)) inl)
               (1 / 25)).filter
             (fun c => filter c (adjustCoeffs co) plane_distance_tolerance) },
       true) := by
  simp only [seg_cb]
  rw [if_neg (by simpa [List.isEmpty_iff] using h)]

/-- Claim C1 (amended): for every detect request in which a plane is
found, the 4-float coefficient array returned in the response
(cloud_plane_coef) equals the ADJUSTED plane model
(a + 0.1, b + 0.5, c + 0.1, d), not the raw fitted coefficients: the
offsets are added at lines 372-376 before the response is filled at
lines 415-417. -/
theorem seg_cb_coef_adjusted (cloud : List Point) (co : Coeffs) (inl : List ℕ)
    (h : extractPos (voxelFilter (passThroughZ cloud)) inl ≠ []) :
    ((seg_cb cloud co inl).1).cloud_plane_coef =
      ⟨co.a + 1 / 10, co.b + 1 / 2, co.c + 1 / 10, co.d⟩ := by
  rw [seg_cb_found cloud co inl h]
  rfl

theorem demo_extractPos :
    extractPos (voxelFilter (passThroughZ [demoPoint])) [0] = [demoPoint] := by
  have h1 : passThroughZ [demoPoint] = [demoPoint] := by
    norm_num [passThroughZ, demoPoint]
  rw [h1, voxelFilter_singleton]
  rfl

theorem seg_cb_coef_adjusted_witness :
    extractPos (voxelFilter (passThroughZ [demoPoint])) [0] ≠ [] ∧
    ((seg_cb [demoPoint] demoCoeffs [0]).1).cloud_plane_coef =
      ⟨demoCoeffs.a + 1 / 10, demoCoeffs.b + 1 / 2, demoCoeffs.c + 1 / 10,
        demoCoeffs.d⟩ :=
  ⟨by rw [demo_extractPos]; simp,
   seg_cb_coef_adjusted [demoPoint] demoCoeffs [0] (by rw [demo_extractPos]; simp)⟩

/-- Claim C1 (counterexample): on a concrete one-point request whose
plane is found, the returned coefficient vector differs from the fitted
PlaneModel (0, 0, 1, -1/2): the response instead carries
(0.1, 0.5, 1.1, -1/2). -/
theorem seg_cb_coef_claim_cex :
    ((seg_cb [demoPoint] demoCoeffs [0]).1).is_plane_found = true ∧
    ((seg_cb [demoPoint] demoCoeffs [0]).1).cloud_plane_coef ≠ demoCoeffs := by
  rw [seg_cb_found [demoPoint] demoCoeffs [0] (by rw [demo_extractPos]; simp)]
  refine ⟨rfl, ?_⟩
  simp only [adjustCoeffs, demoCoeffs, ne_eq, Coeffs.mk.injEq]
  norm_num

/-- Claim C4: for every successful plane fit with fitted coefficients
(a, b, c, d), the adjusted model is exactly (a + 0.1, b + 0.5, c + 0.1, d)
with d unchanged, and the response's plane cloud is the voxel-filtered
cloud cropped to the axis-aligned box with minimum corner (0, 0, 0) and
maximum corner the adjusted coefficient vector (component-wise bounds on
x, y, z; the fourth components are the homogeneous coordinates and do not
constrain). -/
theorem seg_cb_plane_cloud_cropped (cloud : List Point) (co : Coeffs) (inl : List ℕ)
    (h : extractPos (voxelFilter (passThroughZ cloud)) inl ≠ []) :
    adjustCoeffs co = ⟨co.a + 1 / 10, co.b + 1 / 2, co.c + 1 / 10, co.d⟩
    ∧ ((seg_cb cloud co inl).1).cloud_plane =
        (voxelFilter (passThroughZ cloud)).filter
          (fun p => decide (0 ≤ p.x ∧ p.x ≤ co.a + 1 / 10 ∧
            0 ≤ p.y ∧ p.y ≤ co.b + 1 / 2 ∧ 0 ≤ p.z ∧ p.z ≤ co.c + 1 / 10)) := by
  rw [seg_cb_found cloud co inl h]
  exact ⟨rfl, rfl⟩

theorem seg_cb_plane_cloud_cropped_witness :
    extractPos (voxelFilter (passThroughZ [demoPoint])) [0] ≠ [] ∧
    (adjustCoeffs demoCoeffs =
        ⟨demoCoeffs.a + 1 / 10, demoCoeffs.b + 1 / 2, demoCoeffs.c + 1 / 10,
          demoCoeffs.d⟩
      ∧ ((seg_cb [demoPoint] demoCoeffs [0]).1).cloud_plane =
          (voxelFilter (passThroughZ [demoPoint])).filter
            (fun p => decide (0 ≤ p.x ∧ p.x ≤ demoCoeffs.a + 1 / 10 ∧
              0 ≤ p.y ∧ p.y ≤ demoCoeffs.b + 1 / 2 ∧
              0 ≤ p.z ∧ p.z ≤ demoCoeffs.c + 1 / 10))) :=
  ⟨by rw [demo_extractPos]; simp,
   seg_cb_plane_cloud_cropped [demoPoint] demoCoeffs [0]
     (by rw [demo_extractPos]; simp)⟩

/-! ### Euclidean cluster extraction: connected components -/

theorem sqDist_comm (p q : Point) : sqDist p q = sqDist q p := by
  unfold sqDist
  ring

theorem mem_neighbors (cloud : List Point) (tol : ℚ) (i j : ℕ) :
    j ∈ neighbors cloud tol i ↔
      j < cloud.length ∧ sqDist (getPt cloud i) (getPt cloud j) ≤ tol ^ 2 := by
  unfold neighbors
  simp [Finset.mem_filter, Finset.mem_range]

theorem adjRel_symm (cloud : List Point) (tol : ℚ) {i j : ℕ}
    (h : adjRel cloud tol i j) : adjRel cloud tol j i := by
  obtain ⟨hi, hj⟩ := h
  obtain ⟨hjlen, hd⟩ := (mem_neighbors cloud tol i j).mp hj
  exact ⟨hjlen, (mem_neighbors cloud tol j i).mpr ⟨hi, by rwa [sqDist_comm]⟩⟩

theorem subset_expand (cloud : List Point) (tol : ℚ) (s : Finset ℕ) :
    s ⊆ expand cloud tol s := by
  intro x hx
  exact Finset.mem_union_left _ hx

theorem mem_expand (cloud : List Point) (tol : ℚ) (s : Finset ℕ) (j : ℕ) :
    j ∈ expand cloud tol s ↔ j ∈ s ∨ ∃ b ∈ s, j ∈ neighbors cloud tol b := by
  unfold expand
  simp [Finset.mem_union, Finset.mem_biUnion]

theorem neighbors_subset_range (cloud : List Point) (tol : ℚ) (i : ℕ) :
    neighbors cloud tol i ⊆ Finset.range cloud.length :=
  Finset.filter_subset _ _

theorem expand_subset_range (cloud : List Point) (tol : ℚ) (s : Finset ℕ)
    (hs : s ⊆ Finset.range cloud.length) :
    expand cloud tol s ⊆ Finset.range cloud.length := by
  intro j hj
  rcases (mem_expand cloud tol s j).mp hj with h | ⟨b, _, hnb⟩
  · exact hs h
  · exact neighbors_subset_range cloud tol b hnb

theorem iterate_expand_subset_range (cloud : List Point) (tol : ℚ) (s : Finset ℕ)
    (hs : s ⊆ Finset.range cloud.length) :
    ∀ k, (expand cloud tol)^[k] s ⊆ Finset.range cloud.length
  | 0 => hs
  | k + 1 => by
    rw [Function.iterate_succ_apply']
    exact expand_subset_range cloud tol _ (iterate_expand_subset_range cloud tol s hs k)

theorem subset_iterate_expand (cloud : List Point) (tol : ℚ) (s : Finset ℕ) :
    ∀ k, s ⊆ (expand cloud tol)^[k] s
  | 0 => subset_refl s
  | k + 1 => by
    rw [Function.iterate_succ_apply']
    exact (subset_iterate_expand cloud tol s k).trans (subset_expand cloud tol _)

theorem component_subset_range (cloud : List Point) (tol : ℚ) {i : ℕ}
    (hi : i < cloud.length) :
    component cloud tol i ⊆ Finset.range cloud.length :=
  iterate_expand_subset_range cloud tol {i}
    (by simp [Finset.singleton_subset_iff, Finset.mem_range, hi]) cloud.length

theorem mem_component_self (cloud : List Point) (tol : ℚ) (i : ℕ) :
    i ∈ component cloud tol i :=
  subset_iterate_expand cloud tol {i} cloud.length (Finset.mem_singleton_self i)

theorem component_sound (cloud : List Point) (tol : ℚ) {i : ℕ}
    (hi : i < cloud.length) :
    ∀ (k : ℕ) (j : ℕ), j ∈ (expand cloud tol)^[k] {i} →
      Relation.ReflTransGen (adjRel cloud tol) i j
  | 0, j, hj => by
    rw [Function.iterate_zero_apply, Finset.mem_singleton] at hj
    subst hj
    exact Relation.ReflTransGen.refl
  | k + 1, j, hj => by
    rw [Function.iterate_succ_apply'] at hj
    rcases (mem_expand cloud tol _ j).mp hj with h | ⟨b, hb, hnb⟩
    · exact component_sound cloud tol hi k j h
    · have hreach := component_sound cloud tol hi k b hb
      have hblen : b < cloud.length := by
        have hmem := iterate_expand_subset_range cloud tol {i}
          (by simp [Finset.singleton_subset_iff, Finset.mem_range, hi]) k hb
        simpa [Finset.mem_range] using hmem
      exact hreach.tail ⟨hblen, hnb⟩

theorem expand_growth (cloud : List Point) (tol : ℚ) (i : ℕ) :
    ∀ k, (expand cloud tol)^[k + 1] {i} = (expand cloud tol)^[k] {i} ∨
      k + 1 ≤ ((expand cloud tol)^[k] {i}).card
  | 0 => Or.inr (by simp)
  | k + 1 => by
    by_cases heq : (expand cloud tol)^[k + 1] {i} = (expand cloud tol)^[k] {i}
    · left
      rw [Function.iterate_succ_apply' _ (k + 1), heq,
        ← Function.iterate_succ_apply' (expand cloud tol) k {i}]
      exact heq
    · right
      rcases expand_growth cloud tol i k with h | h
      · exact absurd h heq
      · have hsub : (expand cloud tol)^[k] {i} ⊆ (expand cloud tol)^[k + 1] {i} := by
          rw [Function.iterate_succ_apply']
          exact subset_expand cloud tol _
        have hss : (expand cloud tol)^[k] {i} ⊂ (expand cloud tol)^[k + 1] {i} :=
          hsub.ssubset_of_ne (fun e => heq e.symm)
        have hcard := Finset.card_lt_card hss
        omega

theorem expand_component_eq (cloud : List Point) (tol : ℚ) {i : ℕ}
    (hi : i < cloud.length) :
    expand cloud tol (component cloud tol i) = component cloud tol i := by
  rcases expand_growth cloud tol i cloud.length with h | h
  · rw [component,
      ← Function.iterate_succ_apply' (expand cloud tol) cloud.length {i}]
    exact h
  · exfalso
    have hsub := component_subset_range cloud tol hi
    have hcard := Finset.card_le_card hsub
    rw [Finset.card_range] at hcard
    rw [component] at hcard
    omega

theorem component_complete (cloud : List Point) (tol : ℚ) {i j : ℕ}
    (hi : i < cloud.length)
    (h : Relation.ReflTransGen (adjRel cloud tol) i j) :
    j ∈ component cloud tol i := by
  induction h with
  | refl => exact mem_component_self cloud tol i
  | tail hab hbc ih =>
    rename_i b c
    have hc : c ∈ expand cloud tol (component cloud tol i) := by
      rw [mem_expand]
      exact Or.inr ⟨b, ih, hbc.2⟩
    rwa [expand_component_eq cloud tol hi] at hc

theorem mem_component_iff (cloud : List Point) (tol : ℚ) {i : ℕ}
    (hi : i < cloud.length) (j : ℕ) :
    j ∈ component cloud tol i ↔ Relation.ReflTransGen (adjRel cloud tol) i j :=
  ⟨fun h => component_sound cloud tol hi cloud.length j h,
   component_complete cloud tol hi⟩

theorem reach_symm (cloud : List Point) (tol : ℚ) {i j : ℕ}
    (h : Relation.ReflTransGen (adjRel cloud tol) i j) :
    Relation.ReflTransGen (adjRel cloud tol) j i :=
  Relation.ReflTransGen.symmetric (fun _ _ hab => adjRel_symm cloud tol hab) h

theorem component_eq_of_mem (cloud : List Point) (tol : ℚ) {i j : ℕ}
    (hi : i < cloud.length) (hj : j ∈ component cloud tol i) :
    component cloud tol j = component cloud tol i := by
  have hreach := component_sound cloud tol hi cloud.length j hj
  have hjlen : j < cloud.length := by
    have hmem := component_subset_range cloud tol hi hj
    simpa [Finset.mem_range] using hmem
  ext x
  rw [mem_component_iff cloud tol hjlen, mem_component_iff cloud tol hi]
  constructor
  · exact fun hx => hreach.trans hx
  · exact fun hx => (reach_symm cloud tol hreach).trans hx

theorem clustersLoop_spec (cloud : List Point) (tol : ℚ) :
    ∀ (seeds : List ℕ) (processed : Finset ℕ),
      (∀ i ∈ seeds, i < cloud.length) →
      (∀ x ∈ processed, x < cloud.length ∧ component cloud tol x ⊆ processed) →
      (∀ s ∈ clustersLoop cloud tol seeds processed,
          Disjoint s processed ∧ ∃ i, i < cloud.length ∧ s = component cloud tol i)
      ∧ List.Pairwise (fun s t => Disjoint s t) (clustersLoop cloud tol seeds processed)
  | [], processed, _, _ =>
    ⟨fun s hs => by simp [clustersLoop] at hs, by simp [clustersLoop]⟩
  | i :: rest, processed, hseeds, hproc => by
    have hi : i < cloud.length := hseeds i (List.mem_cons_self i rest)
    by_cases hmem : i ∈ processed
    · have he : clustersLoop cloud tol (i :: rest) processed =
          clustersLoop cloud tol rest processed := by
        simp only [clustersLoop]
        rw [if_pos hmem]
      rw [he]
      exact clustersLoop_spec cloud tol rest processed
        (fun j hj => hseeds j (List.mem_cons_of_mem i hj)) hproc
    · have he : clustersLoop cloud tol (i :: rest) processed =
          component cloud tol i ::
            clustersLoop cloud tol rest (processed ∪ component cloud tol i) := by
        simp only [clustersLoop]
        rw [if_neg hmem]
      have hsl : processed ⊆ processed ∪ component cloud tol i := by
        intro x hx
        exact Finset.mem_union_left _ hx
      have hsr : component cloud tol i ⊆ processed ∪ component cloud tol i := by
        intro x hx
        exact Finset.mem_union_right _ hx
      have hproc2 : ∀ x ∈ processed ∪ component cloud tol i,
          x < cloud.length ∧
            component cloud tol x ⊆ processed ∪ component cloud tol i := by
        intro x hx
        rcases Finset.mem_union.mp hx with hx | hx
        · exact ⟨(hproc x hx).1, (hproc x hx).2.trans hsl⟩
        · refine ⟨?_, ?_⟩
          · have hmem2 := component_subset_range cloud tol hi hx
            simpa [Finset.mem_range] using hmem2
          · rw [component_eq_of_mem cloud tol hi hx]
            exact hsr
      have ih := clustersLoop_spec cloud tol rest (processed ∪ component cloud tol i)
        (fun j hj => hseeds j (List.mem_cons_of_mem i hj)) hproc2
      have hdisj : Disjoint (component cloud tol i) processed := by
        rw [Finset.disjoint_left]
        intro x hx hxp
        have hix : i ∈ component cloud tol x := by
          rw [component_eq_of_mem cloud tol hi hx]
          exact mem_component_self cloud tol i
        exact hmem ((hproc x hxp).2 hix)
      rw [he]
      constructor
      · intro s hs
        rcases List.mem_cons.mp hs with rfl | hs
        · exact ⟨hdisj, i, hi, rfl⟩
        · obtain ⟨hd, hex⟩ := ih.1 s hs
          refine ⟨?_, hex⟩
          rw [Finset.disjoint_left] at hd ⊢
          intro x hx hxp
          exact hd hx (hsl hxp)
      · rw [List.pairwise_cons]
        refine ⟨?_, ih.2⟩
        intro t ht
        have hd := (ih.1 t ht).1
        rw [Finset.disjoint_left] at hd ⊢
        intro x hx hxt
        exact hd hxt (hsr hx)

/-- Claim C7: for every input cloud and tolerance, the Euclidean cluster
extraction returns only whole connected components of the
within-tolerance neighbor graph — each returned index set contains a seed
and holds exactly the indices reachable from it — whose point counts lie
within [50, 25000] (components outside these bounds are discarded
entirely), and no point index appears in two different returned
clusters. -/
theorem computeClusters_components (cloud : List Point) (tol : ℚ) :
    (∀ cl ∈ computeClusters cloud tol, 50 ≤ cl.length ∧ cl.length ≤ 25000)
    ∧ List.Pairwise (fun s t => Disjoint s t) (goodClusters cloud tol)
    ∧ (∀ s ∈ goodClusters cloud tol,
        (50 ≤ s.card ∧ s.card ≤ 25000) ∧
        ∃ i, i < cloud.length ∧ i ∈ s ∧
          ∀ j, j ∈ s ↔ Relation.ReflTransGen (adjRel cloud tol) i j) := by
  have hloop := clustersLoop_spec cloud tol (List.range cloud.length) ∅
    (fun j hj => List.mem_range.mp hj) (by simp)
  have hgood : ∀ s ∈ goodClusters cloud tol,
      s ∈ clusterIndices cloud tol ∧ 50 ≤ s.card ∧ s.card ≤ 25000 := by
    intro s hs
    have hsf := List.mem_filter.mp hs
    exact ⟨hsf.1, by simpa using hsf.2⟩
  refine ⟨?_, ?_, ?_⟩
  · intro cl hcl
    obtain ⟨s, hsg, rfl⟩ := List.mem_map.mp hcl
    obtain ⟨-, hcard⟩ := hgood s hsg
    have hlen : ((s.sort (· ≤ ·)).map (getPt cloud)).length = s.card := by
      rw [List.length_map, Finset.length_sort]
    rw [hlen]
    exact hcard
  · exact hloop.2.filter _
  · intro s hsg
    obtain ⟨hsc, hcard⟩ := hgood s hsg
    obtain ⟨-, i, hi, rfl⟩ := hloop.1 s hsc
    exact ⟨hcard, i, hi, mem_component_self cloud tol i,
      fun j => mem_component_iff cloud tol hi j⟩
